import Mathlib

/-!
# Dynamic S/R Zones — verification of the core zone engine

Shallow embedding of the Pine Script indicator "Dynamic S/R Zones"
(`src/unnamed/part_009`).  The engine keeps an authoritative array of
support/resistance zones; each confirmed bar it ages the zones, applies
touch/breakout transitions, ingests newly proposed pivot zones, merges
nearby same-side zones, rescores every zone, and produces two ranked
per-side views capped at 5 entries.

Modelling decisions (all per the spec's external-interface contract):
* prices/volumes are rationals (`ℚ`); Pine floats are modelled exactly;
* the baseline feed (`atr14`, `sma50`, `volSMA`) and the lagged values
  `close[pivotLen]`, `volume[pivotLen]`, … that zone creation reads are
  supplied as per-bar inputs (the spec declares them external);
* `ta.pivothigh`/`ta.pivotlow` results arrive as `Option ℚ` per bar;
* `math.random()` is an injected stream `draws : ℕ → ℕ → ℚ` indexed by
  (resample, trial), per the spec's "injectable random source" note;
* drawing objects (boxes, labels, table) are view state and are omitted;
* one evaluation per confirmed bar (`barstate.isconfirmed` true).
-/

set_option maxRecDepth 8500

namespace SRZones

/-- Configuration inputs of the script (source lines 5–9).  `maxZones` is
declared as an input by the source but is never read by any later line:
the per-side cap in the ranking step is the literal constant 5. -/
structure Config where
  pivotLen : ℕ := 5
  widthMult : ℚ := 1/2
  maxZones : ℕ := 10
  decayRate : ℚ := 997/1000

/-- Per-bar input: the bar's own prices/volume, the externally supplied
baselines for the current bar, the pivot detector's output, and the
`pivotLen`-lagged values the creation filters read
(`close[pivotLen]`, `sma50[pivotLen]`, `volume[pivotLen]`,
`volSMA[pivotLen]`, `atr14[pivotLen]`), plus the injected random stream
used by the bootstrap. -/
structure BarCtx where
  high : ℚ
  low : ℚ
  close : ℚ
  volume : ℚ
  atr14 : ℚ
  volSMA : ℚ
  pivotHigh : Option ℚ := none
  pivotLow : Option ℚ := none
  closeL : ℚ := 0
  sma50L : ℚ := 0
  volumeL : ℚ := 0
  volSMAL : ℚ := 1
  atrL : ℚ := 0
  draws : ℕ → ℕ → ℚ := fun _ _ => 1

/-- The `Zone` user type of the source (lines 17–31), minus the two
drawing handles (`zoneBox`, `zoneLabel`), which are pure view state.
Field defaults follow the source's declared defaults. -/
structure Zone where
  center : ℚ
  high : ℚ
  low : ℚ
  touches : ℕ := 0
  volume : ℚ := 0
  strength : ℚ := 0
  age : ℕ := 0
  is_support : Bool := true
  is_broken : Bool := false
  is_flipped : Bool := false
  volRatio : ℚ := 1
  ciLower : ℚ := 0
deriving DecidableEq, Repr

instance : Inhabited Zone := ⟨{ center := 0, high := 0, low := 0 }⟩

/-- Inner loop of `calcBootstrapCI` (source lines 94–97): one resample
counts successes among `touches` draws, a draw succeeding when it
exceeds 0.5. -/
def bootTouches (draws : ℕ → ℕ → ℚ) (rep touches : ℕ) : ℕ :=
  (List.range touches).foldl
    (fun acc b => if (1/2 : ℚ) < draws rep b then acc + 1 else acc) 0

/-- `calcBootstrapCI` (source lines 88–100): for `touches ≥ 3`, run 100
resamples and return the fraction whose success count exceeds
`touches × 0.5`; otherwise the initial 0.5.  The source also computes a
local `blockSize` that no later line reads; it is omitted. -/
def calcBootstrapCI (draws : ℕ → ℕ → ℚ) (touches : ℕ) : ℚ :=
  if 3 ≤ touches then
    ((List.range 100).foldl
      (fun s rep =>
        s + (if (touches : ℚ) * (1/2) < (bootTouches draws rep touches : ℚ)
             then 1 else 0)) 0) / 100
  else 1/2

/-- The composite score before the confidence penalty (the local `S` of
`calcStrength`, source lines 104–109), as a function of the zone fields
it reads.  Note the touches term is `touches / 10` with NO cap. -/
def calcStrengthBase (cfg : Config) (c : BarCtx)
    (touches : ℕ) (volume volRatio : ℚ) (age : ℕ) : ℚ :=
  let freshness := cfg.decayRate ^ age
  let volComp := volume / (c.volSMA * touches)
  100 * (0.35 * (touches : ℚ) / 10 + 0.30 * volRatio +
         0.20 * volComp + 0.15 * freshness)

/-- The strength value `calcStrength` stores (source lines 110–113):
the base score, halved when `touches ≥ 3` and the bootstrap bound is
below 0.5. -/
def calcStrengthS (cfg : Config) (c : BarCtx)
    (touches : ℕ) (volume volRatio : ℚ) (age : ℕ) : ℚ :=
  let S := calcStrengthBase cfg c touches volume volRatio age
  let ciL := calcBootstrapCI c.draws touches
  if 3 ≤ touches ∧ ciL < 1/2 then S * 0.5 else S

/-- `calcStrength` (source lines 103–114): recompute `strength` and
`ciLower` in place from the zone's other fields. -/
def calcStrength (cfg : Config) (c : BarCtx) (z : Zone) : Zone :=
  { z with strength := calcStrengthS cfg c z.touches z.volume z.volRatio z.age,
           ciLower := calcBootstrapCI c.draws z.touches }

/-- Touch/breakout transition of one existing zone on a confirmed bar
(source lines 160–187).  Support zone: a bar low inside `[low, high]`
is a touch (and triggers an immediate rescore); otherwise a close below
`low` is a breakout that sets the sticky flags, flips the side and
quarters the strength.  Resistance is symmetric on the bar high and a
close above `high`. -/
def updateZone (cfg : Config) (c : BarCtx) (z : Zone) : Zone :=
  if z.is_support then
    if c.low ≤ z.high ∧ z.low ≤ c.low then
      calcStrength cfg c { z with touches := z.touches + 1, volume := z.volume + c.volume }
    else if c.close < z.low then
      { z with is_broken := true, is_flipped := true, is_support := false,
               strength := z.strength * 0.25 }
    else z
  else
    if z.low ≤ c.high ∧ c.high ≤ z.high then
      calcStrength cfg c { z with touches := z.touches + 1, volume := z.volume + c.volume }
    else if z.high < c.close then
      { z with is_broken := true, is_flipped := true, is_support := true,
               strength := z.strength * 0.25 }
    else z

/-- Merging `z2` into `z1` (source lines 72–76): touch-weighted center,
summed touches and volume, minimum age, maximum strength.  `low`,
`high` and the flags of `z1` are left unchanged. -/
def mergeZone (z1 z2 : Zone) : Zone :=
  { z1 with
    center := (z1.center * z1.touches + z2.center * z2.touches) /
              ((z1.touches : ℚ) + (z2.touches : ℚ)),
    touches := z1.touches + z2.touches,
    volume := z1.volume + z2.volume,
    age := min z1.age z2.age,
    strength := max z1.strength z2.strength }

/-- One inner pass of `mergeZones` (source lines 67–82): scan the zones
after position `i`, absorbing into `z1` every zone within `thr` of the
(running) `z1` center on the same side; absorbed zones go to the delete
list, the others are kept in order.  Returns
`(final z1, kept zones, absorbed zones)`. -/
def mergeInner (thr : ℚ) (z1 : Zone) : List Zone → Zone × List Zone × List Zone
  | [] => (z1, [], [])
  | z2 :: rest =>
    if |z1.center - z2.center| ≤ thr ∧ z1.is_support = z2.is_support then
      let r := mergeInner thr (mergeZone z1 z2) rest
      (r.1, r.2.1, z2 :: r.2.2)
    else
      let r := mergeInner thr z1 rest
      (r.1, z2 :: r.2.1, r.2.2)

/-- Outer loop of `mergeZones` (source lines 61–84): `done` holds the
positions the index `i` has passed; after a pass with at least one
absorption `i` stays on the updated `z1`, otherwise `i` advances.
Returns the surviving zones in order together with all absorbed
zones. -/
def mergeLoop (thr : ℚ) (done : List Zone) (z1 : Zone) (rest : List Zone) :
    List Zone × List Zone :=
  if hEmp : (mergeInner thr z1 rest).2.2.isEmpty then
    match hk : (mergeInner thr z1 rest).2.1 with
    | [] => (done ++ [(mergeInner thr z1 rest).1], [])
    | z :: zs => mergeLoop thr (done ++ [(mergeInner thr z1 rest).1]) z zs
  else
    let s := mergeLoop thr done (mergeInner thr z1 rest).1 (mergeInner thr z1 rest).2.1
    (s.1, (mergeInner thr z1 rest).2.2 ++ s.2)
termination_by rest.length
decreasing_by
  · have h : ∀ (w : Zone) (l : List Zone),
        (mergeInner thr w l).2.1.length + (mergeInner thr w l).2.2.length = l.length := by
      intro w l
      induction l generalizing w with
      | nil => rfl
      | cons z2 r ih =>
        simp only [mergeInner]
        split
        · have := ih (mergeZone w z2)
          simp only [List.length_cons]
          omega
        · have := ih w
          simp only [List.length_cons]
          omega
    have h2 := h z1 rest
    rw [List.isEmpty_iff] at hEmp
    rw [hEmp, hk] at h2
    simp only [List.length_cons, List.length_nil] at h2
    omega
  · have h : ∀ (w : Zone) (l : List Zone),
        (mergeInner thr w l).2.1.length + (mergeInner thr w l).2.2.length = l.length := by
      intro w l
      induction l generalizing w with
      | nil => rfl
      | cons z2 r ih =>
        simp only [mergeInner]
        split
        · have := ih (mergeZone w z2)
          simp only [List.length_cons]
          omega
        · have := ih w
          simp only [List.length_cons]
          omega
    have h2 := h z1 rest
    rw [List.isEmpty_iff] at hEmp
    have hlen : 1 ≤ (mergeInner thr z1 rest).2.2.length := by
      cases hmm : (mergeInner thr z1 rest).2.2 with
      | nil => exact absurd hmm hEmp
      | cons a b => simp
    omega

/-- `mergeZones` (source lines 57–85) on the whole zone array; an array
of size ≤ 1 is returned unchanged with nothing to delete. -/
def mergeZones (thr : ℚ) : List Zone → List Zone × List Zone
  | [] => ([], [])
  | z :: rest => mergeLoop thr [] z rest

/-- Zone proposed by a qualifying pivot high (source lines 121–132):
a resistance band of width `widthMult × atr14[pivotLen]` centered on
the pivot price, with one touch and the formation volume. -/
def mkResistanceZone (cfg : Config) (c : BarCtx) (ph : ℚ) : Zone :=
  let width := cfg.widthMult * c.atrL
  { center := ph, high := ph + width/2, low := ph - width/2,
    touches := 1, volume := c.volumeL, is_support := false,
    volRatio := c.volumeL / c.volSMAL }

/-- Zone proposed by a qualifying pivot low (source lines 135–146). -/
def mkSupportZone (cfg : Config) (c : BarCtx) (pl : ℚ) : Zone :=
  let width := cfg.widthMult * c.atrL
  { center := pl, high := pl + width/2, low := pl - width/2,
    touches := 1, volume := c.volumeL, is_support := true,
    volRatio := c.volumeL / c.volSMAL }

/-- Pivot detector output of the bar (source lines 117–146): a pivot
high proposes a resistance zone iff the pivot bar closed below the
50-bar average on volume ≥ 1.2 × the volume baseline; a pivot low the
symmetric support condition.  Resistance is pushed first, as in the
source. -/
def proposeZones (cfg : Config) (c : BarCtx) : List Zone :=
  (match c.pivotHigh with
   | some ph =>
     if c.closeL < c.sma50L ∧ 1.2 * c.volSMAL ≤ c.volumeL
     then [mkResistanceZone cfg c ph] else []
   | none => []) ++
  (match c.pivotLow with
   | some pl =>
     if c.sma50L < c.closeL ∧ 1.2 * c.volSMAL ≤ c.volumeL
     then [mkSupportZone cfg c pl] else []
   | none => [])

/-- One comparison-bounded bubble pass (the inner `j` loop of the
ranking sort, source lines 229–233): `m` adjacent comparisons from the
head, swapping whenever the earlier strength is strictly smaller. -/
def bpass : List Zone → ℕ → List Zone
  | l, 0 => l
  | [], _ + 1 => []
  | [a], _ + 1 => [a]
  | a :: b :: r, m + 1 =>
    if a.strength < b.strength then b :: bpass (a :: r) m else a :: bpass (b :: r) m

/-- The outer `i` loop of the bubble sort (source lines 227–233): the
pass for remaining counter `k+1` performs `k+1` comparisons, matching
the source's shrinking bound `n - i - 2` on `j`. -/
def bsortGo : List Zone → ℕ → List Zone
  | l, 0 => l
  | l, k + 1 => bsortGo (bpass l (k + 1)) k

/-- The full bubble sort by strength descending used for each side's
ranking (source lines 226–242); `n − 1` passes, a list of size ≤ 1 is
left unchanged. -/
def bsort (l : List Zone) : List Zone := bsortGo l (l.length - 1)

/-- Unbounded bubble pass (for reasoning): the same pass with enough
fuel to traverse the whole list. -/
def passZ : List Zone → List Zone
  | [] => []
  | [a] => [a]
  | a :: b :: r =>
    if a.strength < b.strength then b :: passZ (a :: r) else a :: passZ (b :: r)
termination_by l => l.length

/-- Everything the engine produces on one confirmed bar: the
authoritative zone set, the zones absorbed by the merge step, and each
side's ranked view (`take 5`) together with the zones the cap pops off
(`drop 5`). -/
structure BarOut where
  zones : List Zone
  mergeDeleted : List Zone
  topSupport : List Zone
  evictedSupport : List Zone
  topResistance : List Zone
  evictedResistance : List Zone
deriving Repr

/-- One confirmed bar of the engine, in source order: aging (lines
151–154), touch/breakout (157–187), ingestion of proposed zones
(190–192), merge (194–195), full rescore (208–210), partition, per-side
bubble sort and cap at 5 (216–252). -/
def processBar (cfg : Config) (c : BarCtx) (zones : List Zone) : BarOut :=
  let aged := zones.map (fun z => { z with age := z.age + 1 })
  let upd := aged.map (updateZone cfg c)
  let withNew := upd ++ proposeZones cfg c
  let m := mergeZones (0.5 * c.atr14) withNew
  let final := m.1.map (calcStrength cfg c)
  let supp := final.filter (fun z => z.is_support)
  let res := final.filter (fun z => !z.is_support)
  { zones := final, mergeDeleted := m.2,
    topSupport := (bsort supp).take 5, evictedSupport := (bsort supp).drop 5,
    topResistance := (bsort res).take 5, evictedResistance := (bsort res).drop 5 }

/-- The authoritative zone set after a sequence of confirmed bars,
starting from the script's empty initial state. -/
def runBars (cfg : Config) (cs : List BarCtx) : List Zone :=
  cs.foldl (fun zs c => (processBar cfg c zs).zones) []

/-- The spec's wording of the strength formula
("strength = 100 × (0.35×min(touches,10)/10 + 0.30×volumeRatio +
0.20×volComponent + 0.15×freshness)"), for comparison with the
source's `calcStrengthBase`. -/
def specStrengthFormula (cfg : Config) (c : BarCtx)
    (touches : ℕ) (volume volRatio : ℚ) (age : ℕ) : ℚ :=
  let freshness := cfg.decayRate ^ age
  let volComp := volume / (c.volSMA * touches)
  100 * (0.35 * ((min touches 10 : ℕ) : ℚ) / 10 + 0.30 * volRatio +
         0.20 * volComp + 0.15 * freshness)

/-- The spec's wording of the bootstrap bound: the fraction of 100
resamples whose success count among `touches` Bernoulli(0.5) trials
exceeds `touches × 0.5`, success of a trial being a draw above 0.5. -/
def specCI (draws : ℕ → ℕ → ℚ) (touches : ℕ) : ℚ :=
  (((Finset.range 100).filter
      (fun rep => (touches : ℚ) * (1/2) <
        (((Finset.range touches).filter (fun b => (1/2 : ℚ) < draws rep b)).card : ℚ))).card : ℚ)
    / 100

/-- Separation predicate of the merge invariant: if the two zones are on
the same side then their centers are more than `thr` apart. -/
def sepZ (thr : ℚ) (a b : Zone) : Prop :=
  a.is_support = b.is_support → thr < |a.center - b.center|

/-! ### Concrete inputs used by witnesses and counterexamples -/

/-- A configuration with the smallest admissible decay rate (input range
0.9–0.999), keeping concrete arithmetic small. -/
def wCfg : Config := { decayRate := 9/10 }

/-- Bar 1 of the merge counterexample run: a qualifying pivot low at 100
with `atr14[pivotLen] = 2` creates the support zone `[99.5, 100.5]`. -/
def wBarA : BarCtx :=
  { high := 51, low := 49, close := 50, volume := 1, atr14 := 2, volSMA := 1,
    pivotLow := some 100, closeL := 2, sma50L := 1, volumeL := 1, volSMAL := 5/6, atrL := 2 }

/-- Bar 2 of the merge counterexample run: a second qualifying pivot low
at 101 creates `[100.5, 101.5]`; with `atr14 = 2` the two support zones
merge and the weighted center lands exactly on the first zone's high. -/
def wBarB : BarCtx :=
  { high := 103, low := 102, close := 205/2, volume := 1, atr14 := 2, volSMA := 1,
    pivotLow := some 101, closeL := 2, sma50L := 1, volumeL := 1, volSMAL := 5/6, atrL := 2 }

/-- Bar 1 of the tie-break run: creates resistance zone at 300 with
formation volume ratio 817/600. -/
def wTie1 : BarCtx :=
  { high := 51, low := 49, close := 50, volume := 1, atr14 := 2, volSMA := 1,
    pivotHigh := some 300, closeL := 1, sma50L := 2, volumeL := 1, volSMAL := 600/817, atrL := 2 }

/-- Bar 2 of the tie-break run: creates resistance zone at 100 with
formation volume ratio 6/5. -/
def wTie2 : BarCtx :=
  { high := 50, low := 49, close := 99/2, volume := 1, atr14 := 2, volSMA := 1,
    pivotHigh := some 100, closeL := 1, sma50L := 2, volumeL := 1, volSMAL := 5/6, atrL := 2 }

/-- Bar 3 of the tie-break run: touches only the resistance zone at 100,
after which both resistance zones score exactly 76.5. -/
def wTie3 : BarCtx :=
  { high := 100, low := 98, close := 99, volume := 1, atr14 := 2, volSMA := 1 }

/-- The ranking output of the tie-break run. -/
def wTieOut : BarOut := processBar wCfg wTie3 (runBars wCfg [wTie1, wTie2])

/-- Bar `k` of the seven-resistance-zone run: a qualifying pivot high at
`100 + 10 k`; bars are priced near 50 so no zone is ever touched and no
two zones are within the merge threshold. -/
def wSeven (k : ℚ) : BarCtx :=
  { high := 51, low := 49, close := 50, volume := 1, atr14 := 1, volSMA := 1,
    pivotHigh := some (100 + 10 * k), closeL := 1, sma50L := 2, volumeL := 1,
    volSMAL := 5/6, atrL := 1 }

/-- The output of the seventh bar, at which 7 resistance zones are
active. -/
def wSevenOut : BarOut :=
  processBar wCfg (wSeven 6)
    (runBars wCfg [wSeven 0, wSeven 1, wSeven 2, wSeven 3, wSeven 4, wSeven 5])

/-- A bar whose current 20-bar volume baseline is zero while a
qualifying pivot low still creates a zone (the creation filter compares
against the lagged baseline, which is nonzero here). -/
def wBarZeroVol : BarCtx :=
  { high := 51, low := 49, close := 50, volume := 1, atr14 := 2, volSMA := 0,
    pivotLow := some 100, closeL := 2, sma50L := 1, volumeL := 1, volSMAL := 5/6, atrL := 2 }

/-- A generic bar context for pointwise witnesses: unit baselines and a
random stream that always succeeds. -/
def wCtx : BarCtx :=
  { high := 51, low := 49, close := 50, volume := 1, atr14 := 2, volSMA := 1 }

/-- A bar context whose random stream always fails, driving the
bootstrap bound to 0. -/
def wCtxFail : BarCtx :=
  { high := 51, low := 49, close := 50, volume := 1, atr14 := 2, volSMA := 1,
    draws := fun _ _ => 0 }

/-- A support zone `[99.5, 100.5]` used by pointwise witnesses. -/
def wSupZone : Zone :=
  { center := 100, high := 201/2, low := 199/2, touches := 1, volume := 1,
    strength := 40, is_support := true }

/-- A resistance zone `[199.5, 200.5]` used by pointwise witnesses. -/
def wResZone : Zone :=
  { center := 200, high := 401/2, low := 399/2, touches := 1, volume := 1,
    strength := 40, is_support := false }

/-- A bar gapping entirely below `wSupZone` yet closing below its low:
range `[90, 95]` is disjoint from `[99.5, 100.5]`. -/
def wGapBar : BarCtx :=
  { high := 95, low := 90, close := 94, volume := 1, atr14 := 2, volSMA := 1 }

/-- A bar that neither touches `wSupZone` (its low 99 is below the band)
nor stays above it: it closes at 99, below the zone low 99.5, so the
support zone breaks out. -/
def wBreakBar : BarCtx :=
  { high := 101, low := 99, close := 99, volume := 1, atr14 := 2, volSMA := 1 }

/-- A support zone with 3 touches, for the bootstrap-penalty witness. -/
def wCIZone : Zone :=
  { center := 100, high := 201/2, low := 199/2, touches := 3, volume := 1,
    strength := 40, is_support := true }

/-! ### Basic lemmas about the per-zone operations -/

theorem calcStrength_touches (cfg : Config) (c : BarCtx) (z : Zone) :
    (calcStrength cfg c z).touches = z.touches := rfl

theorem calcStrength_center (cfg : Config) (c : BarCtx) (z : Zone) :
    (calcStrength cfg c z).center = z.center := rfl

theorem calcStrength_is_support (cfg : Config) (c : BarCtx) (z : Zone) :
    (calcStrength cfg c z).is_support = z.is_support := rfl

theorem calcStrength_flags (cfg : Config) (c : BarCtx) (z : Zone) :
    (calcStrength cfg c z).is_broken = z.is_broken ∧
    (calcStrength cfg c z).is_flipped = z.is_flipped ∧
    (calcStrength cfg c z).is_support = z.is_support := ⟨rfl, rfl, rfl⟩

theorem mergeZone_touches (z1 z2 : Zone) :
    (mergeZone z1 z2).touches = z1.touches + z2.touches := rfl

theorem mergeZone_is_support (z1 z2 : Zone) :
    (mergeZone z1 z2).is_support = z1.is_support := rfl

theorem updateZone_touches_ge (cfg : Config) (c : BarCtx) (z : Zone) :
    z.touches ≤ (updateZone cfg c z).touches := by
  unfold updateZone
  split <;> split
  · simp [calcStrength_touches]
  · split <;> simp
  · simp [calcStrength_touches]
  · split <;> simp

theorem proposeZones_touches (cfg : Config) (c : BarCtx) :
    ∀ z ∈ proposeZones cfg c, z.touches = 1 := by
  intro z hz
  unfold proposeZones at hz
  rcases List.mem_append.mp hz with h | h
  · rcases hph : c.pivotHigh with _ | ph <;> rw [hph] at h <;> dsimp only at h
    · simp at h
    · by_cases hc : c.closeL < c.sma50L ∧ 1.2 * c.volSMAL ≤ c.volumeL
      · rw [if_pos hc] at h
        rcases List.mem_singleton.mp h with rfl
        rfl
      · rw [if_neg hc] at h
        simp at h
  · rcases hpl : c.pivotLow with _ | pl <;> rw [hpl] at h <;> dsimp only at h
    · simp at h
    · by_cases hc : c.sma50L < c.closeL ∧ 1.2 * c.volSMAL ≤ c.volumeL
      · rw [if_pos hc] at h
        rcases List.mem_singleton.mp h with rfl
        rfl
      · rw [if_neg hc] at h
        simp at h

/-! ### Length accounting of the merge scan -/

theorem mergeInner_len (thr : ℚ) (z1 : Zone) (l : List Zone) :
    (mergeInner thr z1 l).2.1.length + (mergeInner thr z1 l).2.2.length = l.length := by
  induction l generalizing z1 with
  | nil => rfl
  | cons z2 rest ih =>
    simp only [mergeInner]
    split
    · have := ih (mergeZone z1 z2)
      simp only [List.length_cons]
      omega
    · have := ih z1
      simp only [List.length_cons]
      omega

theorem mergeLoop_len (thr : ℚ) (done : List Zone) (z1 : Zone) (rest : List Zone) :
    (mergeLoop thr done z1 rest).1.length + (mergeLoop thr done z1 rest).2.length
      = done.length + 1 + rest.length := by
  induction done, z1, rest using mergeLoop.induct thr with
  | case1 done z1 rest hEmp hk =>
    rw [mergeLoop, dif_pos hEmp]
    split
    · have h := mergeInner_len thr z1 rest
      rw [List.isEmpty_iff] at hEmp
      rw [hEmp, hk] at h
      simp at h
      simp [List.length_eq_zero.mp h.symm]
    · rename_i z' zs' heq
      rw [hk] at heq
      cases heq
  | case2 done z1 rest hEmp z zs hk ih =>
    rw [mergeLoop, dif_pos hEmp]
    split
    · rename_i heq
      rw [hk] at heq
      cases heq
    · rename_i z' zs' heq
      rw [hk] at heq
      injection heq with h1 h2
      subst h1; subst h2
      have h := mergeInner_len thr z1 rest
      rw [List.isEmpty_iff] at hEmp
      rw [hEmp, hk] at h
      simp at h ih ⊢
      omega
  | case3 done z1 rest hEmp ih =>
    rw [mergeLoop, dif_neg hEmp]
    have h := mergeInner_len thr z1 rest
    have hlen : 1 ≤ (mergeInner thr z1 rest).2.2.length := by
      rcases hmm : (mergeInner thr z1 rest).2.2 with _ | ⟨a, b⟩
      · rw [List.isEmpty_iff] at hEmp; exact absurd hmm hEmp
      · simp
    simp at ih ⊢
    omega

theorem mergeZones_len (thr : ℚ) (l : List Zone) :
    (mergeZones thr l).1.length + (mergeZones thr l).2.length = l.length := by
  cases l with
  | nil => rfl
  | cons z rest =>
    have h := mergeLoop_len thr [] z rest
    simp only [mergeZones, List.length_nil, List.length_cons] at h ⊢
    omega

/-! ### Preservation of zone properties through the merge scan -/

theorem mergeInner_pres (thr : ℚ) (P : Zone → Prop)
    (hP : ∀ a b, |a.center - b.center| ≤ thr → a.is_support = b.is_support →
          P a → P b → P (mergeZone a b))
    (z1 : Zone) (l : List Zone) (h1 : P z1) (hl : ∀ z ∈ l, P z) :
    P (mergeInner thr z1 l).1 ∧ (∀ z ∈ (mergeInner thr z1 l).2.1, P z) := by
  induction l generalizing z1 with
  | nil => exact ⟨h1, by simp [mergeInner]⟩
  | cons z2 rest ih =>
    have hz2 : P z2 := hl z2 (by simp)
    have hrest : ∀ z ∈ rest, P z := fun z hz => hl z (List.mem_cons_of_mem _ hz)
    simp only [mergeInner]
    split
    · rename_i hcond
      exact ih (mergeZone z1 z2) (hP z1 z2 hcond.1 hcond.2 h1 hz2) hrest
    · have h := ih z1 h1 hrest
      refine ⟨h.1, ?_⟩
      intro z hz
      rcases List.mem_cons.mp hz with rfl | hz
      · exact hz2
      · exact h.2 z hz

theorem mergeInner_kept_subset (thr : ℚ) (z1 : Zone) (l : List Zone) :
    ∀ z ∈ (mergeInner thr z1 l).2.1, z ∈ l := by
  induction l generalizing z1 with
  | nil => simp [mergeInner]
  | cons z2 rest ih =>
    simp only [mergeInner]
    split
    · intro z hz
      exact List.mem_cons_of_mem _ (ih (mergeZone z1 z2) z hz)
    · intro z hz
      rcases List.mem_cons.mp hz with rfl | hz
      · exact List.mem_cons_self _ _
      · exact List.mem_cons_of_mem _ (ih z1 z hz)

theorem mergeInner_nomerge (thr : ℚ) (z1 : Zone) (l : List Zone)
    (h : (mergeInner thr z1 l).2.2 = []) :
    (mergeInner thr z1 l).1 = z1 ∧ (mergeInner thr z1 l).2.1 = l ∧
    ∀ z ∈ l, sepZ thr z1 z := by
  induction l generalizing z1 with
  | nil => exact ⟨rfl, rfl, by simp⟩
  | cons z2 rest ih =>
    simp only [mergeInner] at h ⊢
    split at h
    · simp at h
    · rename_i hcond
      rw [if_neg hcond]
      have h2 := ih z1 h
      refine ⟨h2.1, by simp [h2.2.1], ?_⟩
      intro z hz
      rcases List.mem_cons.mp hz with rfl | hz
      · intro hside
        by_contra hle
        exact hcond ⟨not_lt.mp hle, hside⟩
      · exact h2.2.2 z hz

/-- The convexity argument behind the merge invariant: a zone separated
from two mergeable zones is separated from their merge, because the
touch-weighted center lies between the two original centers. -/
theorem sep_mergeZone {thr : ℚ} {d a b : Zone}
    (hdist : |a.center - b.center| ≤ thr) (hside : a.is_support = b.is_support)
    (hta : 1 ≤ a.touches) (htb : 1 ≤ b.touches)
    (hda : sepZ thr d a) (hdb : sepZ thr d b) : sepZ thr d (mergeZone a b) := by
  intro hs
  have hsa : d.is_support = a.is_support := hs
  have hsb : d.is_support = b.is_support := hsa.trans hside
  have h1 : thr < |d.center - a.center| := hda hsa
  have h2 : thr < |d.center - b.center| := hdb hsb
  have hthr : 0 ≤ thr := le_trans (abs_nonneg _) hdist
  have hta' : (1:ℚ) ≤ (a.touches : ℚ) := by exact_mod_cast hta
  have htb' : (1:ℚ) ≤ (b.touches : ℚ) := by exact_mod_cast htb
  have hsum : (0:ℚ) < (a.touches : ℚ) + (b.touches : ℚ) := by linarith
  have hcenter : (mergeZone a b).center
      = (a.center * a.touches + b.center * b.touches) /
        ((a.touches : ℚ) + (b.touches : ℚ)) := rfl
  rw [show |d.center - (mergeZone a b).center|
        = |d.center - (a.center * a.touches + b.center * b.touches) /
            ((a.touches : ℚ) + (b.touches : ℚ))| from by rw [hcenter]]
  set A := d.center with hA
  set B := a.center with hB
  set C := b.center with hC
  set ta := (a.touches : ℚ) with hTa
  set tb := (b.touches : ℚ) with hTb
  have hW1 : min B C ≤ (B * ta + C * tb) / (ta + tb) := by
    rw [le_div_iff₀ hsum]
    rcases le_total B C with h | h
    · rw [min_eq_left h]; nlinarith
    · rw [min_eq_right h]; nlinarith
  have hW2 : (B * ta + C * tb) / (ta + tb) ≤ max B C := by
    rw [div_le_iff₀ hsum]
    rcases le_total B C with h | h
    · rw [max_eq_right h]; nlinarith
    · rw [max_eq_left h]; nlinarith
  rw [lt_abs] at h1 h2 ⊢
  rw [abs_le] at hdist
  rcases h1 with h1 | h1 <;> rcases h2 with h2 | h2
  · left
    have hm : max B C < A - thr := max_lt (by linarith) (by linarith)
    have := hW2.trans_lt hm
    linarith
  · exfalso; linarith [hdist.1, hdist.2]
  · exfalso; linarith [hdist.1, hdist.2]
  · right
    have hm : A + thr < min B C := lt_min (by linarith) (by linarith)
    have := hm.trans_le hW1
    linarith

theorem mergeLoop_pres (thr : ℚ) (P : Zone → Prop)
    (hP : ∀ a b, |a.center - b.center| ≤ thr → a.is_support = b.is_support →
          P a → P b → P (mergeZone a b))
    (done : List Zone) (z1 : Zone) (rest : List Zone) :
    (∀ z ∈ done, P z) → P z1 → (∀ z ∈ rest, P z) →
    ∀ z ∈ (mergeLoop thr done z1 rest).1, P z := by
  induction done, z1, rest using mergeLoop.induct thr with
  | case1 done z1 rest hEmp hk =>
    intro hdone h1 hrest
    rw [mergeLoop, dif_pos hEmp]
    split
    · intro z hz
      rcases List.mem_append.mp hz with hz | hz
      · exact hdone z hz
      · rcases List.mem_singleton.mp hz with rfl
        exact (mergeInner_pres thr P hP z1 rest h1 hrest).1
    · rename_i z' zs' heq
      rw [hk] at heq
      cases heq
  | case2 done z1 rest hEmp z zs hk ih =>
    intro hdone h1 hrest
    rw [mergeLoop, dif_pos hEmp]
    split
    · rename_i heq
      rw [hk] at heq
      cases heq
    · rename_i z' zs' heq
      rw [hk] at heq
      injection heq with he1 he2
      subst he1; subst he2
      have hkept : ∀ w ∈ (mergeInner thr z1 rest).2.1, P w :=
        (mergeInner_pres thr P hP z1 rest h1 hrest).2
      refine ih ?_ ?_ ?_
      · intro w hw
        rcases List.mem_append.mp hw with hw | hw
        · exact hdone w hw
        · rcases List.mem_singleton.mp hw with rfl
          exact (mergeInner_pres thr P hP z1 rest h1 hrest).1
      · exact hkept z (by rw [hk]; exact List.mem_cons_self _ _)
      · intro w hw
        exact hkept w (by rw [hk]; exact List.mem_cons_of_mem _ hw)
  | case3 done z1 rest hEmp ih =>
    intro hdone h1 hrest
    rw [mergeLoop, dif_neg hEmp]
    have hp := mergeInner_pres thr P hP z1 rest h1 hrest
    exact ih hdone hp.1 hp.2

theorem mergeZones_pres (thr : ℚ) (P : Zone → Prop)
    (hP : ∀ a b, |a.center - b.center| ≤ thr → a.is_support = b.is_support →
          P a → P b → P (mergeZone a b))
    (l : List Zone) (hl : ∀ z ∈ l, P z) :
    ∀ z ∈ (mergeZones thr l).1, P z := by
  cases l with
  | nil => simp [mergeZones]
  | cons z rest =>
    exact mergeLoop_pres thr P hP [] z rest (by simp) (hl z (by simp))
      (fun w hw => hl w (List.mem_cons_of_mem _ hw))

/-! ### The merge invariant: pairwise separation after the scan -/

/-- The property preserved for a fixed reference zone `d`: separation
from `d` together with the structural `touches ≥ 1` the weighted
average needs. -/
theorem sep_touch_stable (thr : ℚ) (d : Zone) :
    ∀ a b, |a.center - b.center| ≤ thr → a.is_support = b.is_support →
      (sepZ thr d a ∧ 1 ≤ a.touches) → (sepZ thr d b ∧ 1 ≤ b.touches) →
      (sepZ thr d (mergeZone a b) ∧ 1 ≤ (mergeZone a b).touches) := by
  intro a b hdist hside ha hb
  refine ⟨sep_mergeZone hdist hside ha.2 hb.2 ha.1 hb.1, ?_⟩
  rw [mergeZone_touches]
  omega

theorem touch_stable (thr : ℚ) :
    ∀ a b : Zone, |a.center - b.center| ≤ thr → a.is_support = b.is_support →
      1 ≤ a.touches → 1 ≤ b.touches → 1 ≤ (mergeZone a b).touches := by
  intro a b _ _ ha hb
  rw [mergeZone_touches]
  omega

theorem mergeLoop_pairwise (thr : ℚ) (done : List Zone) (z1 : Zone) (rest : List Zone) :
    List.Pairwise (sepZ thr) done →
    (∀ d ∈ done, sepZ thr d z1 ∧ ∀ z ∈ rest, sepZ thr d z) →
    1 ≤ z1.touches → (∀ z ∈ rest, 1 ≤ z.touches) →
    List.Pairwise (sepZ thr) (mergeLoop thr done z1 rest).1 := by
  induction done, z1, rest using mergeLoop.induct thr with
  | case1 done z1 rest hEmp hk =>
    intro hdone hsep h1 hr
    rw [List.isEmpty_iff] at hEmp
    have hnm := mergeInner_nomerge thr z1 rest hEmp
    rw [mergeLoop, dif_pos (by rw [List.isEmpty_iff]; exact hEmp)]
    split
    · rw [hnm.1]
      rw [List.pairwise_append]
      refine ⟨hdone, List.pairwise_singleton _ _, ?_⟩
      intro d hd x hx
      rcases List.mem_singleton.mp hx with rfl
      exact (hsep d hd).1
    · rename_i z' zs' heq
      rw [hk] at heq
      cases heq
  | case2 done z1 rest hEmp z zs hk ih =>
    intro hdone hsep h1 hr
    rw [List.isEmpty_iff] at hEmp
    have hnm := mergeInner_nomerge thr z1 rest hEmp
    have hrest_eq : rest = z :: zs := by rw [← hnm.2.1, hk]
    rw [mergeLoop, dif_pos (by rw [List.isEmpty_iff]; exact hEmp)]
    split
    · rename_i heq
      rw [hk] at heq
      cases heq
    · rename_i z' zs' heq
      rw [hk] at heq
      injection heq with he1 he2
      subst he1; subst he2
      rw [hnm.1] at ih ⊢
      refine ih ?_ ?_ ?_ ?_
      · rw [List.pairwise_append]
        refine ⟨hdone, List.pairwise_singleton _ _, ?_⟩
        intro d hd x hx
        rcases List.mem_singleton.mp hx with rfl
        exact (hsep d hd).1
      · intro d hd
        rcases List.mem_append.mp hd with hd | hd
        · exact ⟨(hsep d hd).2 z (by rw [hrest_eq]; exact List.mem_cons_self _ _),
            fun w hw => (hsep d hd).2 w (by rw [hrest_eq]; exact List.mem_cons_of_mem _ hw)⟩
        · rcases List.mem_singleton.mp hd with rfl
          exact ⟨hnm.2.2 z (by rw [hrest_eq]; exact List.mem_cons_self _ _),
            fun w hw => hnm.2.2 w (by rw [hrest_eq]; exact List.mem_cons_of_mem _ hw)⟩
      · exact hr z (by rw [hrest_eq]; exact List.mem_cons_self _ _)
      · intro w hw
        exact hr w (by rw [hrest_eq]; exact List.mem_cons_of_mem _ hw)
  | case3 done z1 rest hEmp ih =>
    intro hdone hsep h1 hr
    rw [mergeLoop, dif_neg hEmp]
    have hkeep := mergeInner_kept_subset thr z1 rest
    have htou := mergeInner_pres thr (fun w => 1 ≤ w.touches) (touch_stable thr)
      z1 rest h1 hr
    refine ih hdone ?_ htou.1 (fun w hw => hr w (hkeep w hw))
    intro d hd
    have hp := mergeInner_pres thr (fun w => sepZ thr d w ∧ 1 ≤ w.touches)
      (sep_touch_stable thr d) z1 rest ⟨(hsep d hd).1, h1⟩
      (fun w hw => ⟨(hsep d hd).2 w hw, hr w hw⟩)
    exact ⟨hp.1.1, fun w hw => (hp.2 w hw).1⟩

theorem mergeZones_pairwise (thr : ℚ) (l : List Zone)
    (hl : ∀ z ∈ l, 1 ≤ z.touches) :
    List.Pairwise (sepZ thr) (mergeZones thr l).1 := by
  cases l with
  | nil => simp [mergeZones]
  | cons z rest =>
    exact mergeLoop_pairwise thr [] z rest (List.Pairwise.nil) (by simp)
      (hl z (by simp)) (fun w hw => hl w (List.mem_cons_of_mem _ hw))

/-! ### The `touches ≥ 1` invariant of the authoritative set -/

theorem touches_processBar (cfg : Config) (c : BarCtx) (zs : List Zone)
    (h : ∀ z ∈ zs, 1 ≤ z.touches) :
    ∀ z ∈ (processBar cfg c zs).zones, 1 ≤ z.touches := by
  intro z hz
  simp only [processBar] at hz
  rcases List.mem_map.mp hz with ⟨w, hw, rfl⟩
  rw [calcStrength_touches]
  refine mergeZones_pres _ (fun u => 1 ≤ u.touches) (touch_stable _) _ ?_ w hw
  intro u hu
  rcases List.mem_append.mp hu with hu | hu
  · rcases List.mem_map.mp hu with ⟨v, hv, rfl⟩
    rcases List.mem_map.mp hv with ⟨v0, hv0, rfl⟩
    calc 1 ≤ v0.touches := h v0 hv0
      _ = ({ v0 with age := v0.age + 1 } : Zone).touches := rfl
      _ ≤ _ := updateZone_touches_ge cfg c _
  · rw [proposeZones_touches cfg c u hu]

theorem touches_runBars (cfg : Config) (cs : List BarCtx) :
    ∀ z ∈ runBars cfg cs, 1 ≤ z.touches := by
  suffices h : ∀ (cs : List BarCtx) (zs : List Zone), (∀ z ∈ zs, 1 ≤ z.touches) →
      ∀ z ∈ cs.foldl (fun zs c => (processBar cfg c zs).zones) zs, 1 ≤ z.touches by
    intro z hz
    exact h cs [] (by simp) z hz
  intro cs
  induction cs with
  | nil => intro zs h z hz; exact h z hz
  | cons c rest ih =>
    intro zs h z hz
    exact ih _ (touches_processBar cfg c zs h) z hz

/-! ### Correctness of the ranking bubble sort -/

theorem passZ_perm (l : List Zone) : List.Perm (passZ l) l := by
  induction l using passZ.induct with
  | case1 => simp [passZ]
  | case2 a => simp [passZ]
  | case3 a b r hab ih =>
    simp only [passZ, if_pos hab]
    exact (ih.cons b).trans (List.Perm.swap a b r)
  | case4 a b r hab ih =>
    simp only [passZ, if_neg hab]
    exact ih.cons a

theorem passZ_last_min (l : List Zone) (hne : l ≠ []) :
    ∃ l2 c, passZ l = l2 ++ [c] ∧ ∀ x ∈ l, c.strength ≤ x.strength := by
  induction l using passZ.induct with
  | case1 => exact absurd rfl hne
  | case2 a =>
    refine ⟨[], a, by simp [passZ], ?_⟩
    intro x hx
    rcases List.mem_singleton.mp hx with rfl
    exact le_refl _
  | case3 a b r hab ih =>
    obtain ⟨l2, cm, hpass, hmin⟩ := ih (by simp)
    refine ⟨b :: l2, cm, ?_, ?_⟩
    · simp only [passZ, if_pos hab, hpass, List.cons_append]
    · intro x hx
      rcases List.mem_cons.mp hx with rfl | hx
      · exact hmin x (List.mem_cons_self _ _)
      · rcases List.mem_cons.mp hx with rfl | hx
        · exact le_of_lt (lt_of_le_of_lt (hmin a (List.mem_cons_self _ _)) hab)
        · exact hmin x (List.mem_cons_of_mem _ hx)
  | case4 a b r hab ih =>
    obtain ⟨l2, cm, hpass, hmin⟩ := ih (by simp)
    refine ⟨a :: l2, cm, ?_, ?_⟩
    · simp only [passZ, if_neg hab, hpass, List.cons_append]
    · intro x hx
      rcases List.mem_cons.mp hx with rfl | hx
      · exact le_trans (hmin b (List.mem_cons_self _ _)) (not_lt.mp hab)
      · exact hmin x hx

theorem bpass_append (m : ℕ) : ∀ (l1 l2 : List Zone), l1.length = m + 1 →
    bpass (l1 ++ l2) m = passZ l1 ++ l2 := by
  induction m with
  | zero =>
    intro l1 l2 hlen
    rcases l1 with _ | ⟨a, l1⟩
    · simp at hlen
    · rcases l1 with _ | ⟨b, r⟩
      · simp [passZ, bpass]
      · simp at hlen
  | succ m ih =>
    intro l1 l2 hlen
    rcases l1 with _ | ⟨a, l1⟩
    · simp at hlen
    · rcases l1 with _ | ⟨b, r⟩
      · simp at hlen
      · simp only [List.length_cons] at hlen
        have hr : (a :: r).length = m + 1 := by simp; omega
        have hr2 : (b :: r).length = m + 1 := by simp; omega
        show bpass (a :: b :: (r ++ l2)) (m + 1) = passZ (a :: b :: r) ++ l2
        simp only [passZ, bpass]
        by_cases hab : a.strength < b.strength
        · rw [if_pos hab, if_pos hab]
          have h := ih (a :: r) l2 hr
          simp only [List.cons_append] at h ⊢
          rw [h]
        · rw [if_neg hab, if_neg hab]
          have h := ih (b :: r) l2 hr2
          simp only [List.cons_append] at h ⊢
          rw [h]

theorem bsortGo_correct (k : ℕ) : ∀ (l1 l2 : List Zone), l1.length = k + 1 →
    (∀ x ∈ l1, ∀ y ∈ l2, y.strength ≤ x.strength) →
    List.Pairwise (fun a b : Zone => b.strength ≤ a.strength) l2 →
    List.Pairwise (fun a b : Zone => b.strength ≤ a.strength) (bsortGo (l1 ++ l2) k) ∧
    List.Perm (bsortGo (l1 ++ l2) k) (l1 ++ l2) := by
  induction k with
  | zero =>
    intro l1 l2 hlen hcross hsort
    rcases l1 with _ | ⟨a, l1⟩
    · simp at hlen
    · rcases l1 with _ | ⟨b, r⟩
      · refine ⟨?_, List.Perm.refl _⟩
        show List.Pairwise _ (a :: l2)
        exact List.pairwise_cons.mpr
          ⟨fun y hy => hcross a (List.mem_cons_self _ _) y hy, hsort⟩
      · simp at hlen
  | succ k ih =>
    intro l1 l2 hlen hcross hsort
    have hne : l1 ≠ [] := by
      intro h
      rw [h] at hlen
      simp at hlen
    obtain ⟨l2', cm, hpass, hmin⟩ := passZ_last_min l1 hne
    have hperm1 : List.Perm (passZ l1) l1 := passZ_perm l1
    have hmem : ∀ x ∈ l2', x ∈ l1 := by
      intro x hx
      exact hperm1.mem_iff.mp (by rw [hpass]; exact List.mem_append_left _ hx)
    have hcmem : cm ∈ l1 :=
      hperm1.mem_iff.mp (by rw [hpass]; exact List.mem_append_right _ (by simp))
    have hlen2 : l2'.length = k + 1 := by
      have h1 : (passZ l1).length = l1.length := hperm1.length_eq
      rw [hpass] at h1
      simp at h1
      omega
    have hstep : bsortGo (l1 ++ l2) (k + 1) = bsortGo (l2' ++ ([cm] ++ l2)) k := by
      show bsortGo (bpass (l1 ++ l2) (k + 1)) k = _
      rw [bpass_append (k + 1) l1 l2 hlen, hpass, List.append_assoc]
    rw [hstep]
    have hcross2 : ∀ x ∈ l2', ∀ y ∈ [cm] ++ l2, y.strength ≤ x.strength := by
      intro x hx y hy
      rcases List.mem_append.mp hy with hy | hy
      · rcases List.mem_singleton.mp hy with rfl
        exact hmin x (hmem x hx)
      · exact hcross x (hmem x hx) y hy
    have hsort2 : List.Pairwise (fun a b : Zone => b.strength ≤ a.strength) ([cm] ++ l2) := by
      rw [List.singleton_append]
      exact List.pairwise_cons.mpr ⟨fun y hy => hcross cm hcmem y hy, hsort⟩
    obtain ⟨hs, hp⟩ := ih l2' ([cm] ++ l2) hlen2 hcross2 hsort2
    refine ⟨hs, ?_⟩
    have h2 : List.Perm (l2' ++ ([cm] ++ l2)) (l1 ++ l2) := by
      rw [← List.append_assoc, ← hpass]
      exact hperm1.append_right l2
    exact hp.trans h2

theorem bsort_correct (l : List Zone) :
    List.Pairwise (fun a b : Zone => b.strength ≤ a.strength) (bsort l) ∧
    List.Perm (bsort l) l := by
  cases l with
  | nil => exact ⟨List.Pairwise.nil, List.Perm.refl _⟩
  | cons a r =>
    have h := bsortGo_correct ((a :: r).length - 1) (a :: r) [] (by simp) (by simp)
      List.Pairwise.nil
    rw [List.append_nil] at h
    exact h

/-- The ranked view and the popped overflow of one side: the view is
sorted, view ++ overflow is a permutation of the side's zones, nothing
popped outranks anything kept, and the view holds `min 5 n` zones. -/
theorem bsort_take_drop (l : List Zone) :
    List.Pairwise (fun a b : Zone => b.strength ≤ a.strength) ((bsort l).take 5) ∧
    List.Perm ((bsort l).take 5 ++ (bsort l).drop 5) l ∧
    (∀ x ∈ (bsort l).take 5, ∀ y ∈ (bsort l).drop 5, y.strength ≤ x.strength) ∧
    ((bsort l).take 5).length = min 5 l.length := by
  obtain ⟨hs, hp⟩ := bsort_correct l
  refine ⟨List.Pairwise.sublist (List.take_sublist 5 (bsort l)) hs, ?_, ?_, ?_⟩
  · rw [List.take_append_drop]
    exact hp
  · have hall : List.Pairwise (fun a b : Zone => b.strength ≤ a.strength)
        ((bsort l).take 5 ++ (bsort l).drop 5) := by
      rw [List.take_append_drop]
      exact hs
    have h := List.pairwise_append.mp hall
    exact fun x hx y hy => h.2.2 x hx y hy
  · rw [List.length_take, hp.length_eq]

/-! ### Loop-to-count translation for the bootstrap estimator -/

theorem foldl_count_nat (p : ℕ → Prop) [DecidablePred p] (n : ℕ) : ∀ a : ℕ,
    (List.range n).foldl (fun acc b => if p b then acc + 1 else acc) a
      = a + ((Finset.range n).filter p).card := by
  induction n with
  | zero => intro a; simp
  | succ n ih =>
    intro a
    rw [List.range_succ, List.foldl_append, ih]
    simp only [List.foldl_cons, List.foldl_nil]
    rw [Finset.range_succ, Finset.filter_insert]
    by_cases h : p n
    · rw [if_pos h, if_pos h, Finset.card_insert_of_not_mem (by simp)]
      omega
    · rw [if_neg h, if_neg h]

theorem foldl_count_rat (p : ℕ → Prop) [DecidablePred p] (n : ℕ) : ∀ a : ℚ,
    (List.range n).foldl (fun s rep => s + (if p rep then 1 else 0)) a
      = a + (((Finset.range n).filter p).card : ℚ) := by
  induction n with
  | zero => intro a; simp
  | succ n ih =>
    intro a
    rw [List.range_succ, List.foldl_append, ih]
    simp only [List.foldl_cons, List.foldl_nil]
    rw [Finset.range_succ, Finset.filter_insert]
    by_cases h : p n
    · rw [if_pos h, if_pos h, Finset.card_insert_of_not_mem (by simp)]
      push_cast
      ring
    · rw [if_neg h, if_neg h]
      simp

theorem bootTouches_eq (draws : ℕ → ℕ → ℚ) (rep t : ℕ) :
    bootTouches draws rep t
      = ((Finset.range t).filter (fun b => (1/2 : ℚ) < draws rep b)).card := by
  have h := foldl_count_nat (fun b => (1/2 : ℚ) < draws rep b) t 0
  simpa [bootTouches] using h

theorem calcBootstrapCI_spec (draws : ℕ → ℕ → ℚ) (t : ℕ) (h3 : 3 ≤ t) :
    calcBootstrapCI draws t = specCI draws t := by
  rw [calcBootstrapCI, if_pos h3]
  have h := foldl_count_rat
    (fun rep => (t : ℚ) * (1/2) < (bootTouches draws rep t : ℚ)) 100 0
  rw [h, specCI]
  simp only [bootTouches_eq, zero_add]

theorem headI_mem {l : List Zone} (h : l ≠ []) : l.headI ∈ l := by
  cases l with
  | nil => exact absurd rfl h
  | cons a r => exact List.mem_cons_self a r

/-- Anything the per-side cap pops off (the sorted list beyond position
5) is still a member of the list that was sorted. -/
theorem bsort_drop_subset (l : List Zone) : ∀ z ∈ (bsort l).drop 5, z ∈ l := by
  intro z hz
  exact ((bsort_correct l).2.mem_iff).mp (List.mem_of_mem_drop hz)

/-- Bounds of a freshly created zone: with a positive width the pivot
price sits strictly between the band edges, and `touches = 1`. -/
theorem creation_bounds (cfg : Config) (c : BarCtx)
    (hw : 0 < cfg.widthMult * c.atrL) :
    ∀ z ∈ proposeZones cfg c, z.low < z.center ∧ z.center < z.high ∧ z.touches = 1 := by
  intro z hz
  unfold proposeZones at hz
  rcases List.mem_append.mp hz with h | h
  · rcases hph : c.pivotHigh with _ | ph <;> rw [hph] at h <;> dsimp only at h
    · simp at h
    · by_cases hc : c.closeL < c.sma50L ∧ 1.2 * c.volSMAL ≤ c.volumeL
      · rw [if_pos hc] at h
        rcases List.mem_singleton.mp h with rfl
        refine ⟨?_, ?_, rfl⟩ <;> show _ < _ <;> dsimp only [mkResistanceZone] <;> linarith
      · rw [if_neg hc] at h
        simp at h
  · rcases hpl : c.pivotLow with _ | pl <;> rw [hpl] at h <;> dsimp only at h
    · simp at h
    · by_cases hc : c.sma50L < c.closeL ∧ 1.2 * c.volSMAL ≤ c.volumeL
      · rw [if_pos hc] at h
        rcases List.mem_singleton.mp h with rfl
        refine ⟨?_, ?_, rfl⟩ <;> show _ < _ <;> dsimp only [mkSupportZone] <;> linarith
      · rw [if_neg hc] at h
        simp at h

/-! ### Claim theorems -/

/-- **C1.** On a confirmed bar, a support zone whose band the bar's low
misses and whose close falls below the zone low ends the touch/breakout
step broken, flipped, no longer support, with its strength multiplied
by 0.25 (the source's pre-rescore penalty); symmetrically a resistance
zone flips to support when the close rises above its high; and the
three flags survive the end-of-bar rescore, which never changes them. -/
theorem claim_C1 (cfg : Config) (c : BarCtx) (z w : Zone) :
    (z.is_support = true → ¬(c.low ≤ z.high ∧ z.low ≤ c.low) → c.close < z.low →
      (updateZone cfg c z).is_broken = true ∧ (updateZone cfg c z).is_flipped = true ∧
      (updateZone cfg c z).is_support = false ∧
      (updateZone cfg c z).strength = z.strength * 0.25) ∧
    (z.is_support = false → ¬(z.low ≤ c.high ∧ c.high ≤ z.high) → z.high < c.close →
      (updateZone cfg c z).is_broken = true ∧ (updateZone cfg c z).is_flipped = true ∧
      (updateZone cfg c z).is_support = true ∧
      (updateZone cfg c z).strength = z.strength * 0.25) ∧
    ((calcStrength cfg c w).is_broken = w.is_broken ∧
     (calcStrength cfg c w).is_flipped = w.is_flipped ∧
     (calcStrength cfg c w).is_support = w.is_support) := by
  refine ⟨?_, ?_, calcStrength_flags cfg c w⟩
  · intro hs hnt hcl
    unfold updateZone
    rw [if_pos hs, if_neg hnt, if_pos hcl]
    exact ⟨rfl, rfl, rfl, rfl⟩
  · intro hs hnt hcl
    unfold updateZone
    rw [hs]
    rw [if_neg (by simp), if_neg hnt, if_pos hcl]
    exact ⟨rfl, rfl, rfl, rfl⟩

/-- Witness for C1: the bar `wBreakBar` (low 99, close 99) misses the
band `[99.5, 100.5]` of `wSupZone` and closes below it. -/
theorem wit_C1 :
    (updateZone wCfg wBreakBar wSupZone).is_broken = true ∧
    (updateZone wCfg wBreakBar wSupZone).is_flipped = true ∧
    (updateZone wCfg wBreakBar wSupZone).is_support = false ∧
    (updateZone wCfg wBreakBar wSupZone).strength = wSupZone.strength * 0.25 :=
  (claim_C1 wCfg wBreakBar wSupZone wSupZone).1 (by with_unfolding_all decide)
    (by with_unfolding_all decide) (by with_unfolding_all decide)

/-- **C2 counterexample.** At 20 touches the source's score is 135 while
the spec's capped formula gives 100: the source has no
`min(touches, 10)` cap (here volume 20, unit baselines, age 0, and a
random stream that avoids the confidence penalty). -/
theorem cex_C2 :
    calcStrengthS wCfg wCtx 20 20 1 0 = 135 ∧
    specStrengthFormula wCfg wCtx 20 20 1 0 = 100 ∧
    calcStrengthS wCfg wCtx 20 20 1 0 ≠ specStrengthFormula wCfg wCtx 20 20 1 0 := by
  refine ⟨by with_unfolding_all decide, by with_unfolding_all decide,
    by with_unfolding_all decide⟩

/-- **C2 (amended).** The pre-penalty score is
`100 × (0.35 × touches/10 + 0.30 × volumeRatio + 0.20 × volComponent +
0.15 × decayRate^age)` with NO cap on the touches term; it agrees with
the spec's capped formula exactly on zones with at most 10 touches. -/
theorem claim_C2_amended (cfg : Config) (c : BarCtx)
    (touches : ℕ) (volume volRatio : ℚ) (age : ℕ) (h : touches ≤ 10) :
    calcStrengthBase cfg c touches volume volRatio age
      = specStrengthFormula cfg c touches volume volRatio age := by
  unfold calcStrengthBase specStrengthFormula
  rw [min_eq_left h]

/-- Witness for C2 (amended) at 7 touches. -/
theorem wit_C2 : (7 : ℕ) ≤ 10 ∧
    calcStrengthBase wCfg wCtx 7 1 1 0 = specStrengthFormula wCfg wCtx 7 1 1 0 :=
  ⟨by decide, claim_C2_amended wCfg wCtx 7 1 1 0 (by decide)⟩

/-- **C3.** After the merge step of every confirmed bar (equivalently,
in the end-of-bar authoritative set, since the rescore changes no
center or side), no two distinct same-side zones have centers within
`0.5 × ATR` of each other, for any run from the empty initial state. -/
theorem claim_C3 (cfg : Config) (cs : List BarCtx) (c : BarCtx) :
    List.Pairwise (sepZ (0.5 * c.atr14)) (processBar cfg c (runBars cfg cs)).zones := by
  have hinv : ∀ z ∈ runBars cfg cs, 1 ≤ z.touches := touches_runBars cfg cs
  simp only [processBar]
  rw [List.pairwise_map]
  have hpair := mergeZones_pairwise (0.5 * c.atr14)
    (((runBars cfg cs).map (fun z => { z with age := z.age + 1 })).map (updateZone cfg c)
      ++ proposeZones cfg c) ?_
  · exact hpair.imp (fun h => h)
  · intro z hz
    rcases List.mem_append.mp hz with hz | hz
    · rcases List.mem_map.mp hz with ⟨v, hv, rfl⟩
      rcases List.mem_map.mp hv with ⟨v0, hv0, rfl⟩
      exact le_trans (hinv v0 hv0)
        (updateZone_touches_ge cfg c { v0 with age := v0.age + 1 })
    · rw [proposeZones_touches cfg c z hz]

/-- **C7.** Parameterizing over the injected draws: for `touches ≥ 3`
the source's bootstrap loop computes exactly the fraction of 100
resamples whose success count among `touches` Bernoulli(0.5) trials
exceeds `touches × 0.5`; and whenever `touches ≥ 3` and the bound is
below 0.5, the stored strength is the base score halved. -/
theorem claim_C7 (draws : ℕ → ℕ → ℚ) (t : ℕ) (cfg : Config) (c : BarCtx) (z : Zone) :
    (3 ≤ t → calcBootstrapCI draws t = specCI draws t) ∧
    (3 ≤ z.touches → calcBootstrapCI c.draws z.touches < 1/2 →
      (calcStrength cfg c z).strength
        = calcStrengthBase cfg c z.touches z.volume z.volRatio z.age * 0.5) := by
  constructor
  · exact fun h3 => calcBootstrapCI_spec draws t h3
  · intro h3 hci
    show calcStrengthS cfg c z.touches z.volume z.volRatio z.age = _
    unfold calcStrengthS
    rw [if_pos ⟨h3, hci⟩]

/-- Witness for C7: an always-failing stream at 3 touches gives bound 0
and halves the score. -/
theorem wit_C7 :
    calcBootstrapCI (fun _ _ => (0:ℚ)) 3 = specCI (fun _ _ => (0:ℚ)) 3 ∧
    (calcStrength wCfg wCtxFail wCIZone).strength
      = calcStrengthBase wCfg wCtxFail wCIZone.touches wCIZone.volume
          wCIZone.volRatio wCIZone.age * 0.5 :=
  ⟨(claim_C7 (fun _ _ => (0:ℚ)) 3 wCfg wCtxFail wCIZone).1 (by decide),
   (claim_C7 (fun _ _ => (0:ℚ)) 3 wCfg wCtxFail wCIZone).2 (by decide)
     (by with_unfolding_all decide)⟩

/-- **C10.** At the end of every confirmed bar, every authoritative
zone's `strength` and `ciLower` equal the scoring function applied to
its end-of-bar fields (touches, volume, volRatio, age) — a function
that never reads the previous strength, so untouched zones decay via
`decayRate^age` and no within-bar adjustment (breakout × 0.25, merge
max) survives to the bar's output. -/
theorem claim_C10 (cfg : Config) (c : BarCtx) (zs : List Zone) :
    ∀ z ∈ (processBar cfg c zs).zones,
      z.strength = calcStrengthS cfg c z.touches z.volume z.volRatio z.age ∧
      z.ciLower = calcBootstrapCI c.draws z.touches := by
  intro z hz
  simp only [processBar] at hz
  rcases List.mem_map.mp hz with ⟨w, hw, rfl⟩
  exact ⟨rfl, rfl⟩

/-- Witness for C10 on the first zone of the seven-zone run. -/
theorem wit_C10 :
    wSevenOut.zones.headI.strength
      = calcStrengthS wCfg (wSeven 6) wSevenOut.zones.headI.touches
          wSevenOut.zones.headI.volume wSevenOut.zones.headI.volRatio
          wSevenOut.zones.headI.age ∧
    wSevenOut.zones.headI.ciLower
      = calcBootstrapCI (wSeven 6).draws wSevenOut.zones.headI.touches := by
  have hne : wSevenOut.zones ≠ [] := by
    intro h
    have h7 : wSevenOut.zones.length = 7 := by with_unfolding_all decide
    rw [h] at h7
    simp at h7
  exact claim_C10 wCfg (wSeven 6)
    (runBars wCfg [wSeven 0, wSeven 1, wSeven 2, wSeven 3, wSeven 4, wSeven 5])
    wSevenOut.zones.headI (headI_mem hne)

/-- **C4 counterexample.** A reachable 2-bar run: a support zone
`[99.5, 100.5]` (center 100) merges with a second support zone at 101,
and the touch-weighted center lands exactly on the surviving zone's
unchanged high bound 100.5, so `center < high` fails in the
authoritative set. -/
theorem cex_C4 :
    (runBars wCfg [wBarA, wBarB]).length = 1 ∧
    ¬((runBars wCfg [wBarA, wBarB]).headI.center
        < (runBars wCfg [wBarA, wBarB]).headI.high) := by
  constructor
  · with_unfolding_all decide
  · with_unfolding_all decide

/-- **C4 (amended).** Every zone in the authoritative set of any run has
`touches ≥ 1`; and `low < center < high` holds at creation whenever the
proposed width `widthMult × atr14[pivotLen]` is positive — but merging
moves `center` by a touch-weighted average while leaving `low`/`high`
unchanged, so the bound invariant is not preserved by merges. -/
theorem claim_C4_amended (cfg : Config) (cs : List BarCtx) (c : BarCtx)
    (hw : 0 < cfg.widthMult * c.atrL) :
    (∀ z ∈ runBars cfg cs, 1 ≤ z.touches) ∧
    (∀ z ∈ proposeZones cfg c, z.low < z.center ∧ z.center < z.high ∧ z.touches = 1) :=
  ⟨touches_runBars cfg cs, creation_bounds cfg c hw⟩

/-- Witness for C4 (amended): the zone created on bar `wBarA`. -/
theorem wit_C4 :
    1 ≤ (runBars wCfg [wBarA]).headI.touches ∧
    (mkSupportZone wCfg wBarA 100).low < (mkSupportZone wCfg wBarA 100).center := by
  have h := claim_C4_amended wCfg [wBarA] wBarA (by with_unfolding_all decide)
  constructor
  · refine h.1 (runBars wCfg [wBarA]).headI (headI_mem ?_)
    intro hh
    have h1 : (runBars wCfg [wBarA]).length = 1 := by with_unfolding_all decide
    rw [hh] at h1
    simp at h1
  · exact (h.2 (mkSupportZone wCfg wBarA 100) (by with_unfolding_all decide)).1

/-- **C5 counterexample.** On the seventh bar of the seven-resistance
run the authoritative set still holds all 7 zones; the ranked view
holds 5 and the cap pops 2, but those 2 zones are not removed from the
authoritative set (and the source has no eviction alert at the cap,
lines 244–252 only delete drawing boxes). -/
theorem cex_C5 :
    wSevenOut.zones.length = 7 ∧
    wSevenOut.topResistance.length = 5 ∧
    wSevenOut.evictedResistance.length = 2 ∧
    wSevenOut.evictedResistance.headI ∈ wSevenOut.zones := by
  have hres : (wSevenOut.zones.filter (fun z => !z.is_support)).length = 7 := by
    with_unfolding_all decide
  have hsort : (bsort (wSevenOut.zones.filter (fun z => !z.is_support))).length = 7 := by
    rw [(bsort_correct _).2.length_eq]
    exact hres
  have htop : wSevenOut.topResistance.length = 5 := by
    show ((bsort (wSevenOut.zones.filter (fun z => !z.is_support))).take 5).length = 5
    rw [List.length_take, hsort]
    omega
  have hev : wSevenOut.evictedResistance.length = 2 := by
    show ((bsort (wSevenOut.zones.filter (fun z => !z.is_support))).drop 5).length = 2
    rw [List.length_drop, hsort]
  refine ⟨by with_unfolding_all decide, htop, hev, ?_⟩
  have hne : wSevenOut.evictedResistance ≠ [] := by
    intro hh
    rw [hh] at hev
    simp at hev
  have hmem : wSevenOut.evictedResistance.headI ∈ wSevenOut.evictedResistance :=
    headI_mem hne
  have h2 : wSevenOut.evictedResistance.headI
      ∈ wSevenOut.zones.filter (fun z => !z.is_support) :=
    bsort_drop_subset _ _ hmem
  exact List.mem_of_mem_filter h2

/-- **C5 (amended).** The per-bar zone count is conserved up to merges
(`|zones'| + |merged away| = |zones| + |proposed|`): a zone leaves the
authoritative set only by being absorbed in a merge.  The per-side cap
does not destroy zones — everything it pops is still in the
authoritative set — and the source emits no eviction event (its alerts
are NEW_ZONE, ZONE_TOUCH and ZONE_FLIP only). -/
theorem claim_C5_amended (cfg : Config) (c : BarCtx) (zs : List Zone) :
    ((processBar cfg c zs).zones.length + (processBar cfg c zs).mergeDeleted.length
      = zs.length + (proposeZones cfg c).length) ∧
    (∀ z ∈ (processBar cfg c zs).evictedResistance, z ∈ (processBar cfg c zs).zones) ∧
    (∀ z ∈ (processBar cfg c zs).evictedSupport, z ∈ (processBar cfg c zs).zones) := by
  refine ⟨?_, ?_, ?_⟩
  · simp only [processBar, List.length_map]
    have h := mergeZones_len (0.5 * c.atr14)
      (((zs.map (fun z => { z with age := z.age + 1 })).map (updateZone cfg c))
        ++ proposeZones cfg c)
    simp only [List.length_append, List.length_map] at h
    omega
  · intro z hz
    exact List.mem_of_mem_filter (bsort_drop_subset _ z hz)
  · intro z hz
    exact List.mem_of_mem_filter (bsort_drop_subset _ z hz)

/-- Witness for C5 (amended) on the seventh bar of the seven-zone
run. -/
theorem wit_C5 :
    ((processBar wCfg (wSeven 6)
        (runBars wCfg [wSeven 0, wSeven 1, wSeven 2, wSeven 3, wSeven 4, wSeven 5])).zones.length
      + (processBar wCfg (wSeven 6)
          (runBars wCfg [wSeven 0, wSeven 1, wSeven 2, wSeven 3, wSeven 4, wSeven 5])).mergeDeleted.length
      = (runBars wCfg [wSeven 0, wSeven 1, wSeven 2, wSeven 3, wSeven 4, wSeven 5]).length
        + (proposeZones wCfg (wSeven 6)).length) ∧
    wSevenOut.evictedResistance.headI ∈ wSevenOut.zones := by
  have hres : (wSevenOut.zones.filter (fun z => !z.is_support)).length = 7 := by
    with_unfolding_all decide
  have hsort : (bsort (wSevenOut.zones.filter (fun z => !z.is_support))).length = 7 := by
    rw [(bsort_correct _).2.length_eq]
    exact hres
  have hev : wSevenOut.evictedResistance.length = 2 := by
    show ((bsort (wSevenOut.zones.filter (fun z => !z.is_support))).drop 5).length = 2
    rw [List.length_drop, hsort]
  have hne : wSevenOut.evictedResistance ≠ [] := by
    intro hh
    rw [hh] at hev
    simp at hev
  have h := claim_C5_amended wCfg (wSeven 6)
    (runBars wCfg [wSeven 0, wSeven 1, wSeven 2, wSeven 3, wSeven 4, wSeven 5])
  exact ⟨h.1, h.2.1 wSevenOut.evictedResistance.headI (headI_mem hne)⟩

/-- **C6 counterexample.** A reachable 3-bar run ends with two
resistance zones of exactly equal strength 76.5; the ranked view lists
the 1-touch zone before the 2-touch zone (the source's bubble sort
compares strength only and leaves ties in array order), refuting the
claimed tie-break by higher touches. -/
theorem cex_C6 :
    wTieOut.topResistance.map (fun z => (z.touches, z.strength))
      = [(1, 153/2), (2, 153/2)] := by
  with_unfolding_all decide

/-- **C6 (amended).** Each side's visible list is that side's zones
sorted by strength descending and truncated to the first 5 (the cap is
the hard-coded constant 5; the `maxZones` input is unused): the view is
sorted, view ++ popped is a permutation of the side's zones, nothing
popped outranks anything kept, and the view holds `min 5 n` zones.
Ties are not reordered by touches or age. -/
theorem claim_C6_amended (cfg : Config) (c : BarCtx) (zs : List Zone) :
    (List.Pairwise (fun a b : Zone => b.strength ≤ a.strength)
        (processBar cfg c zs).topResistance ∧
      List.Perm ((processBar cfg c zs).topResistance ++ (processBar cfg c zs).evictedResistance)
        ((processBar cfg c zs).zones.filter (fun z => !z.is_support)) ∧
      (∀ x ∈ (processBar cfg c zs).topResistance,
        ∀ y ∈ (processBar cfg c zs).evictedResistance, y.strength ≤ x.strength) ∧
      (processBar cfg c zs).topResistance.length
        = min 5 ((processBar cfg c zs).zones.filter (fun z => !z.is_support)).length) ∧
    (List.Pairwise (fun a b : Zone => b.strength ≤ a.strength)
        (processBar cfg c zs).topSupport ∧
      List.Perm ((processBar cfg c zs).topSupport ++ (processBar cfg c zs).evictedSupport)
        ((processBar cfg c zs).zones.filter (fun z => z.is_support)) ∧
      (∀ x ∈ (processBar cfg c zs).topSupport,
        ∀ y ∈ (processBar cfg c zs).evictedSupport, y.strength ≤ x.strength) ∧
      (processBar cfg c zs).topSupport.length
        = min 5 ((processBar cfg c zs).zones.filter (fun z => z.is_support)).length) :=
  ⟨bsort_take_drop ((processBar cfg c zs).zones.filter (fun z => !z.is_support)),
   bsort_take_drop ((processBar cfg c zs).zones.filter (fun z => z.is_support))⟩

/-- Witness for C6 (amended) on the seven-zone run: the view is sorted
and the first popped zone does not outrank the first kept zone. -/
theorem wit_C6 :
    List.Pairwise (fun a b : Zone => b.strength ≤ a.strength) wSevenOut.topResistance ∧
    wSevenOut.evictedResistance.headI.strength ≤ wSevenOut.topResistance.headI.strength := by
  have hres : (wSevenOut.zones.filter (fun z => !z.is_support)).length = 7 := by
    with_unfolding_all decide
  have hsort : (bsort (wSevenOut.zones.filter (fun z => !z.is_support))).length = 7 := by
    rw [(bsort_correct _).2.length_eq]
    exact hres
  have htop : wSevenOut.topResistance.length = 5 := by
    show ((bsort (wSevenOut.zones.filter (fun z => !z.is_support))).take 5).length = 5
    rw [List.length_take, hsort]
    omega
  have hev : wSevenOut.evictedResistance.length = 2 := by
    show ((bsort (wSevenOut.zones.filter (fun z => !z.is_support))).drop 5).length = 2
    rw [List.length_drop, hsort]
  have hneTop : wSevenOut.topResistance ≠ [] := by
    intro hh
    rw [hh] at htop
    simp at htop
  have hneEv : wSevenOut.evictedResistance ≠ [] := by
    intro hh
    rw [hh] at hev
    simp at hev
  have h := claim_C6_amended wCfg (wSeven 6)
    (runBars wCfg [wSeven 0, wSeven 1, wSeven 2, wSeven 3, wSeven 4, wSeven 5])
  exact ⟨h.1.1, h.1.2.2.1 wSevenOut.topResistance.headI (headI_mem hneTop)
    wSevenOut.evictedResistance.headI (headI_mem hneEv)⟩

/-- **C8 counterexample.** A bar gapping entirely below a support zone
(range `[90, 95]` versus band `[99.5, 100.5]`) does not intersect the
zone's bounds, yet its close 94 below the zone low triggers a breakout:
the zone ends the step broken. -/
theorem cex_C8 :
    wGapBar.high < wSupZone.low ∧
    wSupZone.is_broken = false ∧
    (updateZone wCfg wGapBar wSupZone).is_broken = true := by
  refine ⟨by with_unfolding_all decide, rfl, by with_unfolding_all decide⟩

/-- **C8 (amended).** Per confirmed bar a zone undergoes at most one of
touch and breakout (a touch increments `touches`, a breakout inverts
the side; never both); on a bar whose range misses the zone's band no
touch occurs — but a breakout still occurs when the bar closes past
the zone's active edge, e.g. a support zone with the whole bar below
its band and the close below its low. -/
theorem claim_C8_amended (cfg : Config) (c : BarCtx) (z : Zone) (hlh : c.low ≤ c.high) :
    ¬((updateZone cfg c z).touches = z.touches + 1 ∧
      (updateZone cfg c z).is_support = !z.is_support) ∧
    ((c.high < z.low ∨ z.high < c.low) → (updateZone cfg c z).touches = z.touches) ∧
    (z.is_support = true → c.high < z.low → c.close < z.low →
      (updateZone cfg c z).is_broken = true ∧ (updateZone cfg c z).is_support = false) := by
  refine ⟨?_, ?_, ?_⟩
  · intro hc
    unfold updateZone at hc
    by_cases hz : z.is_support = true
    · rw [if_pos hz] at hc
      by_cases h1 : c.low ≤ z.high ∧ z.low ≤ c.low
      · rw [if_pos h1] at hc
        have h2 := hc.2
        rw [calcStrength_is_support] at h2
        simp [hz] at h2
      · rw [if_neg h1] at hc
        by_cases h2 : c.close < z.low
        · rw [if_pos h2] at hc
          have h3 := hc.1
          simp at h3
        · rw [if_neg h2] at hc
          have h3 := hc.2
          simp [hz] at h3
    · rw [if_neg hz] at hc
      by_cases h1 : z.low ≤ c.high ∧ c.high ≤ z.high
      · rw [if_pos h1] at hc
        have h2 := hc.2
        rw [calcStrength_is_support] at h2
        rw [Bool.not_eq_true] at hz
        simp [hz] at h2
      · rw [if_neg h1] at hc
        by_cases h2 : z.high < c.close
        · rw [if_pos h2] at hc
          have h3 := hc.1
          simp at h3
        · rw [if_neg h2] at hc
          have h3 := hc.2
          rw [Bool.not_eq_true] at hz
          simp [hz] at h3
  · intro hd
    unfold updateZone
    by_cases hz : z.is_support = true
    · rw [if_pos hz]
      have h1 : ¬(c.low ≤ z.high ∧ z.low ≤ c.low) := by
        rcases hd with hd | hd
        · intro hcl
          linarith [hcl.2]
        · intro hcl
          linarith [hcl.1]
      rw [if_neg h1]
      by_cases h2 : c.close < z.low
      · rw [if_pos h2]
      · rw [if_neg h2]
    · rw [if_neg hz]
      have h1 : ¬(z.low ≤ c.high ∧ c.high ≤ z.high) := by
        rcases hd with hd | hd
        · intro hcl
          linarith [hcl.1]
        · intro hcl
          linarith [hcl.2]
      rw [if_neg h1]
      by_cases h2 : z.high < c.close
      · rw [if_pos h2]
      · rw [if_neg h2]
  · intro hz hbelow hclose
    unfold updateZone
    rw [if_pos hz]
    have h1 : ¬(c.low ≤ z.high ∧ z.low ≤ c.low) := by
      intro hcl
      linarith [hcl.2]
    rw [if_neg h1, if_pos hclose]
    exact ⟨rfl, rfl⟩

/-- Witness for C8 (amended): the gap bar below `wSupZone` causes no
touch but does break the zone. -/
theorem wit_C8 :
    (updateZone wCfg wGapBar wSupZone).touches = wSupZone.touches ∧
    (updateZone wCfg wGapBar wSupZone).is_broken = true := by
  have h := claim_C8_amended wCfg wGapBar wSupZone (by with_unfolding_all decide)
  exact ⟨h.2.1 (Or.inl (by with_unfolding_all decide)),
    (h.2.2 rfl (by with_unfolding_all decide) (by with_unfolding_all decide)).1⟩

/-- **C9 counterexample.** A bar whose current 20-bar volume baseline is
0 creates and rescores a zone with `touches = 1`: the `volComponent`
denominator `volSMA × touches` is 0 despite `touches ≥ 1`, so
`touches ≥ 1` alone does not make the denominator nonzero. -/
theorem cex_C9 :
    (runBars wCfg [wBarZeroVol]).length = 1 ∧
    1 ≤ (runBars wCfg [wBarZeroVol]).headI.touches ∧
    wBarZeroVol.volSMA * ((runBars wCfg [wBarZeroVol]).headI.touches : ℚ) = 0 := by
  refine ⟨by with_unfolding_all decide, by with_unfolding_all decide,
    by with_unfolding_all decide⟩

/-- **C9 (amended).** For every zone in the authoritative set of any
run, the `touches` factor of the `volComponent` denominator is nonzero
(`touches ≥ 1` structurally), so the denominator
`volumeBaseline × touches` is nonzero whenever the bar's volume
baseline itself is nonzero. -/
theorem claim_C9_amended (cfg : Config) (cs : List BarCtx) (v : ℚ) (hv : v ≠ 0) :
    ∀ z ∈ runBars cfg cs, ((z.touches : ℚ) ≠ 0 ∧ v * (z.touches : ℚ) ≠ 0) := by
  intro z hz
  have h1 := touches_runBars cfg cs z hz
  have h2 : (z.touches : ℚ) ≠ 0 := by
    have h3 : z.touches ≠ 0 := by omega
    exact_mod_cast h3
  exact ⟨h2, mul_ne_zero hv h2⟩

/-- Witness for C9 (amended) on the single-bar creation run with unit
baseline. -/
theorem wit_C9 :
    ((runBars wCfg [wBarA]).headI.touches : ℚ) ≠ 0 ∧
    (1 : ℚ) * ((runBars wCfg [wBarA]).headI.touches : ℚ) ≠ 0 := by
  refine claim_C9_amended wCfg [wBarA] 1 (by norm_num)
    (runBars wCfg [wBarA]).headI (headI_mem ?_)
  intro hh
  have h1 : (runBars wCfg [wBarA]).length = 1 := by with_unfolding_all decide
  rw [hh] at h1
  simp at h1

end SRZones
